import Mathlib

/-!
Verification of the FanboxDLArchive synchronization pipeline.

This file gives a shallow embedding of the pipeline's core algorithms:

* the convention-driven directory-to-post grouping of
  `src/post/mod.rs` (`read_fanbox_dl_archive`, `read_dir_files`),
* the per-post transactional metadata synchronization and the
  progress-bar based run summary of `sync_posts`,
* the creator loop of `main.rs`,
* the allow/deny creator filter of `src/config.rs`
  (`Config::filter_creator`),
* the author lookup-or-create loop of `src/creator.rs`
  (`sync_creators`),
* the semaphore-bounded transform concurrency of `sync_posts`.

Filenames are modelled as lists of characters (Rust strings are valid
UTF-8 after `to_string_lossy`; where the code works at the byte level,
such as `str::split_at`, we compute per-character UTF-8 byte sizes with
`Char.utf8Size`, which is exact for valid UTF-8). Filesystem trees are
inductive values; the pipeline's filesystem reads never fail on them, so
only the failure modes produced by the code itself (integer parse
errors, byte-boundary panics) are represented.
-/

/-- A filename, as a list of characters. -/
abbrev FName := List Char

/-- A path relative to the creator directory: the list of name
components from the creator directory down to the entry. -/
abbrev RPath := List FName

/-- A filesystem tree entry: a regular file, a directory with its
children, or an entry that is neither (symlink, socket, ...), which the
code only warns about and skips. -/
inductive FsTree where
  | file (name : FName)
  | dir (name : FName) (children : List FsTree)
  | other (name : FName)

/-- `filename.starts_with('.')` — the hidden-entry test used by every
directory loop in the code. -/
def is_hidden (name : FName) : Bool :=
  match name with
  | [] => false
  | c :: _ => c = '.'

/-- Helper for `trim_end_matches_yen`: works on the reversed name and
strips every leading occurrence of the reversed suffix `yen`. -/
def trim_ney : List Char → List Char
  | c :: d :: e :: rest =>
      if c = 'n' ∧ d = 'e' ∧ e = 'y' then trim_ney rest
      else c :: d :: e :: rest
  | s => s

/-- Rust `filename.trim_end_matches("yen")` (post/mod.rs line 97):
repeatedly removes a trailing `yen` from the name. -/
def trim_end_matches_yen (s : FName) : FName :=
  (trim_ney s.reverse).reverse

/-- One step of Rust's `u32::from_str` digit loop: accumulate a digit,
failing on a non-digit character or on overflow past `2 ^ 32 - 1`
(Rust's checked multiply/add on `u32`). -/
def parse_u32_digits : List Char → Nat → Option Nat
  | [], acc => some acc
  | c :: rest, acc =>
      if c.isDigit then
        let v := acc * 10 + (c.toNat - '0'.toNat)
        if v < 2 ^ 32 then parse_u32_digits rest v else none
      else none

/-- Rust `str::parse::<u32>()` (post/mod.rs line 100): an optional
leading plus sign, then one or more decimal digits whose value fits in a
`u32`. -/
def parse_u32 (s : FName) : Option Nat :=
  let t := if s.head? = some '+' then s.tail else s
  if t.isEmpty then none else parse_u32_digits t 0

/-- The numeric value of a digit string (most significant digit first),
the value `u32::from_str` computes when it succeeds. -/
def digits_val (ds : FName) : Nat :=
  ds.foldl (fun a c => a * 10 + (c.toNat - '0'.toNat)) 0

/-- Total UTF-8 byte length of a name, as Rust `str::len` computes it. -/
def utf8_len (s : FName) : Nat := (s.map Char.utf8Size).sum

/-- Rust `str::split_at(mid)` at the byte level (post/mod.rs line 106):
walk characters, consuming `mid` bytes; `none` models the panic raised
when `mid` exceeds the byte length or falls inside a multi-byte
character (not a character boundary). -/
def split_at_bytes : FName → Nat → Option (FName × FName)
  | s, 0 => some ([], s)
  | [], _ + 1 => none
  | c :: cs, m + 1 =>
      if c.utf8Size ≤ m + 1 then
        match split_at_bytes cs (m + 1 - c.utf8Size) with
        | some (a, b) => some (c :: a, b)
        | none => none
      else none

/-- Model of chrono `DateTime::parse_from_str(date, "%Y-%m-%d-")`
(post/mod.rs line 107). chrono's `DateTime::parse_from_str` must
reconstruct a complete timestamp with a UTC offset from the parsed
fields; the format string supplies only a calendar date (no time of day
and no offset), so the call fails with a NotEnough parse error for every
input string. We model the result as always `none`. -/
def chrono_parse_ymd_dash (_date : FName) : Option (Nat × Nat × Nat) :=
  none

/-- Outcome of classifying one non-hidden subdirectory of a creator
directory (post/mod.rs lines 96-115). -/
inductive DirClass where
  | plan (yen : Nat)
  | post (date : Nat × Nat × Nat) (title : FName)
  | ignored
  | parseErr
  | panicked
deriving DecidableEq, Repr

/-- The directory-name classification of `read_fanbox_dl_archive`
(post/mod.rs lines 96-115): trim trailing `yen`; if something was
trimmed, parse the remainder as `u32` (a failure propagates as an error
through the question-mark operator); otherwise byte-split the name at
index 11 (panicking when that index is out of range or not a character
boundary) and try the chrono date parse on the prefix, ignoring the
directory when it fails. -/
def classify_dir (filename : FName) : DirClass :=
  let yen := trim_end_matches_yen filename
  if yen ≠ filename then
    match parse_u32 yen with
    | some n => DirClass.plan n
    | none => DirClass.parseErr
  else
    match split_at_bytes filename 11 with
    | none => DirClass.panicked
    | some (date, name) =>
      match chrono_parse_ymd_dash date with
      | some d => DirClass.post d name
      | none => DirClass.ignored

/-- `MAX_DEPTH` from post/mod.rs line 83. -/
def max_depth : Nat := 5

/-- The `FanboxDLPost` enum of post/mod.rs, with each file represented
by its path relative to the creator directory. -/
inductive FanboxDLPost where
  | ungroup (files : List RPath)
  | group_by_plan (plan : Nat) (files : List RPath)
  | group_by_post (date : Nat × Nat × Nat) (title : FName) (files : List RPath)
deriving DecidableEq, Repr

/-- The file list of a group. -/
def FanboxDLPost.files : FanboxDLPost → List RPath
  | FanboxDLPost.ungroup fs => fs
  | FanboxDLPost.group_by_plan _ fs => fs
  | FanboxDLPost.group_by_post _ _ fs => fs

/-- The non-hidden regular files directly inside a directory, in entry
order (the first phase of each `read_dir_files` loop iteration). -/
def local_files (base : RPath) (children : List FsTree) : List RPath :=
  children.filterMap fun t =>
    match t with
    | FsTree.file n => if is_hidden n then none else some (base ++ [n])
    | _ => none

/-- `read_dir_files` of post/mod.rs (lines 126-163): at recursion level
`level`, return nothing once `level` exceeds `MAX_DEPTH` (the truncating
depth guard); otherwise collect this directory's own non-hidden files
first, then the recursive results of its non-hidden subdirectories in
entry order (the code pushes all subdirectory futures and awaits them
after the loop). The code has no fuel parameter: its recursion is
bounded by the depth guard alone, so any `fuel` with
`fuel + level > max_depth + 1` computes the same result
(`read_dir_files_fuel_stable` below); the top-level call uses
`fuel = max_depth + 1` at `level = 1`, which is exact. -/
def read_dir_files : Nat → RPath → Nat → List FsTree → List RPath
  | 0, _, _, _ => []
  | fuel + 1, base, level, children =>
      if max_depth < level then []
      else
        local_files base children ++
          (children.map fun t =>
            match t with
            | FsTree.dir n cs =>
                if is_hidden n then []
                else read_dir_files fuel (base ++ [n]) (level + 1) cs
            | _ => []).flatten

/-- Result of `read_fanbox_dl_archive`: the group list, an error
propagated by the question-mark operator, or a panic. -/
inductive ReadResult where
  | ok (posts : List FanboxDLPost)
  | errored
  | panicked
deriving DecidableEq, Repr

/-- The entry loop of `read_fanbox_dl_archive` (post/mod.rs lines
88-123), carrying the accumulated group list and the accumulated
top-level loose files. Hidden entries are skipped, regular files join
the ungrouped list, non-file non-directory entries are skipped with a
warning, and directories are classified by `classify_dir`: plan and
dated groups collect their subtree with `read_dir_files` at level 1,
unmatched directories are ignored, a `u32` parse failure aborts with an
error, and a byte-split panic aborts the call. After the loop the
ungrouped list is appended as a final `Ungroup` group. -/
def read_archive_loop : List FsTree → List FanboxDLPost → List RPath → ReadResult
  | [], posts, ungroup => ReadResult.ok (posts ++ [FanboxDLPost.ungroup ungroup])
  | FsTree.file n :: rest, posts, ungroup =>
      if is_hidden n then read_archive_loop rest posts ungroup
      else read_archive_loop rest posts (ungroup ++ [[n]])
  | FsTree.other _ :: rest, posts, ungroup =>
      read_archive_loop rest posts ungroup
  | FsTree.dir n cs :: rest, posts, ungroup =>
      if is_hidden n then read_archive_loop rest posts ungroup
      else
        match classify_dir n with
        | DirClass.plan yen =>
            read_archive_loop rest
              (posts ++ [FanboxDLPost.group_by_plan yen
                (read_dir_files (max_depth + 1) [n] 1 cs)]) ungroup
        | DirClass.post d title =>
            read_archive_loop rest
              (posts ++ [FanboxDLPost.group_by_post d title
                (read_dir_files (max_depth + 1) [n] 1 cs)]) ungroup
        | DirClass.ignored => read_archive_loop rest posts ungroup
        | DirClass.parseErr => ReadResult.errored
        | DirClass.panicked => ReadResult.panicked

/-- `read_fanbox_dl_archive` (post/mod.rs lines 80-166) on the children
of the creator directory. -/
def read_fanbox_dl_archive (entries : List FsTree) : ReadResult :=
  read_archive_loop entries [] []

/-- Concatenation of every group's file list, the subject of the
cross-group partition property. -/
def all_group_files (posts : List FanboxDLPost) : List RPath :=
  posts.flatMap FanboxDLPost.files

/-- Whether the group builder classifies a directory name as a group
root (plan-tier or dated-post). -/
def is_group_dir (name : FName) : Bool :=
  match classify_dir name with
  | DirClass.plan _ => true
  | DirClass.post _ _ => true
  | _ => false

mutual

/-- Specification-side contribution of one entry beneath a group root:
a non-hidden regular file is eligible; a non-hidden directory
contributes its own eligible files with one less remaining level; hidden
entries and non-file non-directory entries contribute nothing. -/
def spec_eligible_entry : Nat → RPath → FsTree → List RPath
  | _, base, FsTree.file n => if is_hidden n then [] else [base ++ [n]]
  | _, _, FsTree.other _ => []
  | remaining, base, FsTree.dir n cs =>
      if is_hidden n then []
      else spec_eligible_under remaining (base ++ [n]) cs
termination_by r _ _ => (r, 1)

/-- Specification-side eligible files beneath one group root: the
non-hidden regular files reachable through non-hidden directories, with
at most `remaining` further directory levels allowed (a file directly in
the current directory consumes one level), enumerated once each in entry
order. `remaining = max_depth` at the group root matches the code's
depth guard. -/
def spec_eligible_under : Nat → RPath → List FsTree → List RPath
  | 0, _, _ => []
  | remaining + 1, base, entries =>
      entries.flatMap (spec_eligible_entry remaining base)
termination_by r _ _ => (r, 0)

end

/-- Specification-side contribution of one top-level entry of the
creator directory: a non-hidden regular file is eligible as a loose
file; a non-hidden subdirectory that the builder classifies as a group
root contributes its eligible files within the depth limit; everything
else contributes nothing. -/
def spec_top_entry (t : FsTree) : List RPath :=
  match t with
  | FsTree.file n => if is_hidden n then [] else [[n]]
  | FsTree.other _ => []
  | FsTree.dir n cs =>
      if is_hidden n ∨ ¬ is_group_dir n then []
      else spec_eligible_under max_depth [n] cs

/-- Specification-side eligible files of a creator directory: its own
non-hidden regular files, plus, for each non-hidden subdirectory that
the builder classifies as a group root, the eligible files beneath it
within the depth limit. -/
def spec_eligible (entries : List FsTree) : List RPath :=
  entries.flatMap spec_top_entry

/-- All regular files reachable from the creator directory within
`depth` directory levels, hidden or not, grouped or not — the literal
reading of the claimed partition domain. -/
def reachable_regular_files : Nat → RPath → List FsTree → List RPath
  | 0, _, _ => []
  | depth + 1, base, entries =>
      entries.flatMap fun t =>
        match t with
        | FsTree.file n => [base ++ [n]]
        | FsTree.other _ => []
        | FsTree.dir n cs => reachable_regular_files depth (base ++ [n]) cs

/-- The name of a tree entry. -/
def FsTree.name : FsTree → FName
  | FsTree.file n => n
  | FsTree.dir n _ => n
  | FsTree.other n => n

/-- Well-formed directory listing: sibling names are distinct at every
level, as a real filesystem guarantees. -/
inductive WFEntries : List FsTree → Prop where
  | mk (es : List FsTree) :
      (es.map FsTree.name).Nodup →
      (∀ n cs, FsTree.dir n cs ∈ es → WFEntries cs) →
      WFEntries es

/-- One post handed to the store-sync loop of `sync_posts`: an abstract
identifying key and whether the store's `post.sync` call succeeds for
it. -/
structure PostSync where
  key : Nat
  ok : Bool
deriving DecidableEq, Repr

/-- The store-transaction structure of `sync_posts` (post/mod.rs lines
186-245): for each post in turn the loop opens a fresh transaction
(`manager.transaction()`), runs the store sync, and commits that
transaction (`manager.commit()`) before moving to the next post; a sync
failure propagates through the question-mark operator, dropping (and so
rolling back) only the current uncommitted transaction. Returns the
committed post keys and whether the loop completed. -/
def sync_posts_committed : List Nat → List PostSync → List Nat × Bool
  | store, [] => (store, true)
  | store, p :: rest =>
      if p.ok then sync_posts_committed (store ++ [p.key]) rest
      else (store, false)

/-- One creator in the main loop: an abstract identifier and whether its
`get_posts` plus `sync_posts` processing succeeds. -/
structure CreatorProc where
  id : Nat
  ok : Bool
deriving DecidableEq, Repr

/-- The creator loop of `main` (main.rs lines 46-60): each creator's
`get_posts(..).await?` and `sync_posts(..).await?` propagate any error
straight out of `main` via the question-mark operator. Returns the
identifiers of fully processed creators and whether the run completed
without error. -/
def run_creators : List CreatorProc → List Nat × Bool
  | [] => ([], true)
  | c :: rest =>
      if c.ok then
        let (done, r) := run_creators rest
        (c.id :: done, r)
      else ([], false)

/-- An indicatif progress bar, reduced to the position and length state
that `sync_posts` reads back. -/
structure PBar where
  pos : Nat
  len : Nat
deriving DecidableEq, Repr

/-- `ProgressBar::new(n)`: position 0, length `n`. -/
def pbar_new (n : Nat) : PBar := PBar.mk 0 n

/-- `ProgressBar::inc(k)`. -/
def pbar_inc (b : PBar) (k : Nat) : PBar := PBar.mk (b.pos + k) b.len

/-- `ProgressBar::finish_and_clear()`: indicatif's `ProgressFinish::AndClear`
completes the bar — it sets the position to the length (when a length is
set) and hides the bar. -/
def pbar_finish_and_clear (b : PBar) : PBar := PBar.mk b.len b.len

/-- The total/success/failed triple printed at the end of `sync_posts`. -/
structure RunSummary where
  total : Nat
  success : Nat
  failed : Nat
deriving DecidableEq, Repr

/-- The final summary computation of `sync_posts` (post/mod.rs lines
184, 247-256), with each post given as the list of its per-file
transform outcomes (`true` = success). The `total` bar is created with
length `posts.len()`; no statement in `sync_posts` increments it (only
the per-post bars are incremented); after `join_all` it is finished and
cleared, and the summary prints `length`, `position`, and their
difference. The per-file outcomes never reach the summary. -/
def sync_posts_summary (posts : List (List Bool)) : RunSummary :=
  let total := pbar_new posts.length
  let total := pbar_finish_and_clear total
  RunSummary.mk total.len total.pos (total.len - total.pos)

/-- The per-file transform outcomes of a run, in launch order: each
spawned task records its own success or captured error on its own file
progress bar, independently of every sibling task. -/
def transform_outcomes (posts : List (List Bool)) : List Bool :=
  posts.flatten

/-- The number of failed transforms in a run — what the claim says the
summary's failed count reports. -/
def count_failed (posts : List (List Bool)) : Nat :=
  ((transform_outcomes posts).filter (fun b => !b)).length

/-- The default of the `--limit` option (config.rs lines 31-33). -/
def default_limit : Nat := 5

/-- Counting state of the transform-task pool of `sync_posts`:
`available` free semaphore permits, `running` tasks holding a permit and
performing their copy/move/hardlink, `pending` spawned tasks not yet
admitted, and `finished` completed tasks. -/
structure SemState where
  available : Nat
  running : Nat
  pending : Nat
  finished : Nat
deriving DecidableEq, Repr

/-- Transitions of the transform pool: `sync_posts` spawns a task into
the `JoinSet` (post/mod.rs line 225), a pending task is admitted when
`semaphores.acquire()` obtains one of the `config.limit()` permits
(lines 187, 226), and a running task finishes its transform and drops
its permit (lines 229-241). -/
inductive SemStep : SemState → SemState → Prop where
  | spawn (s : SemState) :
      SemStep s (SemState.mk s.available s.running (s.pending + 1) s.finished)
  | acquire (s : SemState) :
      0 < s.pending → 0 < s.available →
      SemStep s
        (SemState.mk (s.available - 1) (s.running + 1) (s.pending - 1)
          s.finished)
  | complete (s : SemState) :
      0 < s.running →
      SemStep s
        (SemState.mk (s.available + 1) (s.running - 1) s.pending
          (s.finished + 1))

/-- States reachable by the transform pool of a run whose semaphore was
created with `limit` permits (`Semaphore::new(config.limit())`). -/
inductive SemReach (limit : Nat) : SemState → Prop where
  | init : SemReach limit (SemState.mk limit 0 0 0)
  | step {s t : SemState} : SemReach limit s → SemStep s t → SemReach limit t

/-- The archive store's author table, modelled as the association list
of (alias key, author id) honoring the store's lookup-or-create
contract: `check_author` finds the first entry with the given alias, and
creation appends a fresh id. -/
abbrev Store := List (FName × Nat)

/-- The platform-qualified alias `sync_creators` builds for a creator
(creator.rs line 64): the characters of `fanbox:` followed by the
creator identifier. -/
def alias_of (creator : FName) : FName :=
  ['f', 'a', 'n', 'b', 'o', 'x', ':'] ++ creator

/-- `manager.check_author(&[alias])`: look the alias up in the store. -/
def check_author : Store → FName → Option Nat
  | [], _ => none
  | (k, v) :: rest, key => if k = key then some v else check_author rest key

/-- The author loop of `sync_creators` (creator.rs lines 56-82): for
each creator, look its platform-qualified alias up; on a hit take the
existing author, otherwise create an author registered under exactly
that alias (the store assigns the next id). Returns the final store and
the author id resolved for each creator in order. -/
def sync_creators : Store → List FName → Store × List Nat
  | store, [] => (store, [])
  | store, c :: rest =>
      match check_author store (alias_of c) with
      | some id =>
          let (s, ids) := sync_creators store rest
          (s, id :: ids)
      | none =>
          let id := store.length
          let (s, ids) := sync_creators (store ++ [(alias_of c, id)]) rest
          (s, id :: ids)

/-- `Config::filter_creator` (config.rs lines 76-83): accept a creator
when the whitelist is empty or contains it, and the blacklist does not
contain it. -/
def filter_creator (whitelist blacklist : List FName) (creator : FName) :
    Bool :=
  (whitelist.isEmpty || whitelist.contains creator) &&
    !(blacklist.contains creator)

theorem trim_ney_of_head_ne (c : Char) (cs : List Char) (h : c ≠ 'n') :
    trim_ney (c :: cs) = c :: cs := by
  cases cs with
  | nil => rfl
  | cons d cs' =>
      cases cs' with
      | nil => rfl
      | cons e rest => simp [trim_ney, h]

theorem trim_end_matches_yen_digits (ds : FName) (hne : ds ≠ [])
    (hdig : ∀ c ∈ ds, c.isDigit = true) :
    trim_end_matches_yen (ds ++ ['y', 'e', 'n']) = ds := by
  unfold trim_end_matches_yen
  rw [List.reverse_append]
  have h1 : List.reverse ['y', 'e', 'n'] = ['n', 'e', 'y'] := by decide
  rw [h1]
  simp only [List.cons_append, List.nil_append]
  have h2 : trim_ney ('n' :: 'e' :: 'y' :: ds.reverse) = trim_ney ds.reverse := by
    simp [trim_ney]
  rw [h2]
  cases hrev : ds.reverse with
  | nil =>
      exact absurd (by simpa using congrArg List.reverse hrev) hne
  | cons c cs =>
      have hcmem : c ∈ ds := by
        rw [← List.mem_reverse, hrev]; simp
      have hcd : c.isDigit = true := hdig c hcmem
      have hcn : c ≠ 'n' := by
        intro hh; rw [hh] at hcd; exact absurd hcd (by decide)
      rw [trim_ney_of_head_ne c cs hcn, ← hrev, List.reverse_reverse]

theorem digits_val_foldl_mono (ds : List Char) (acc : Nat) :
    acc ≤ ds.foldl (fun a c => a * 10 + (c.toNat - '0'.toNat)) acc := by
  induction ds generalizing acc with
  | nil => simp
  | cons c cs ih =>
      have h1 := ih (acc * 10 + (c.toNat - '0'.toNat))
      simp only [List.foldl_cons]
      omega

theorem parse_u32_digits_eq (ds : List Char) (acc : Nat)
    (hdig : ∀ c ∈ ds, c.isDigit = true)
    (hlt : ds.foldl (fun a c => a * 10 + (c.toNat - '0'.toNat)) acc < 2 ^ 32) :
    parse_u32_digits ds acc =
      some (ds.foldl (fun a c => a * 10 + (c.toNat - '0'.toNat)) acc) := by
  induction ds generalizing acc with
  | nil => simp [parse_u32_digits]
  | cons c cs ih =>
      have hc : c.isDigit = true := hdig c (by simp)
      have hmono := digits_val_foldl_mono cs (acc * 10 + (c.toNat - '0'.toNat))
      simp only [List.foldl_cons] at hlt ⊢
      have hv : acc * 10 + (c.toNat - '0'.toNat) < 2 ^ 32 := by omega
      simp only [parse_u32_digits, hc, if_true, hv]
      exact ih _ (fun d hd => hdig d (by simp [hd])) hlt

theorem parse_u32_of_digits (ds : FName) (hne : ds ≠ [])
    (hdig : ∀ c ∈ ds, c.isDigit = true) (hlt : digits_val ds < 2 ^ 32) :
    parse_u32 ds = some (digits_val ds) := by
  cases ds with
  | nil => exact absurd rfl hne
  | cons c cs =>
      have hc : c.isDigit = true := hdig c (by simp)
      have hcp : c ≠ '+' := by
        intro hh; rw [hh] at hc; exact absurd hc (by decide)
      unfold parse_u32
      simp only [List.head?, Option.some.injEq, hcp, if_false, List.isEmpty]
      exact parse_u32_digits_eq (c :: cs) 0 hdig hlt

theorem classify_dir_plan (ds : FName) (hne : ds ≠ [])
    (hdig : ∀ c ∈ ds, c.isDigit = true) (hlt : digits_val ds < 2 ^ 32) :
    classify_dir (ds ++ ['y', 'e', 'n']) = DirClass.plan (digits_val ds) := by
  have hne2 : ds ≠ ds ++ ['y', 'e', 'n'] := by
    intro h
    have := congrArg List.length h
    simp at this
  simp [classify_dir, trim_end_matches_yen_digits ds hne hdig, hne2,
    parse_u32_of_digits ds hne hdig hlt]

theorem classify_dir_parse_err (name : FName)
    (hyen : trim_end_matches_yen name ≠ name)
    (hbad : parse_u32 (trim_end_matches_yen name) = none) :
    classify_dir name = DirClass.parseErr := by
  simp [classify_dir, hyen, hbad]

/-- C6 (amended): a directory whose name is a non-empty run of decimal
digits followed by `yen`, with the digits' value below `2 ^ 32`, is
always classified as a plan-tier group with that numeric price level;
but a directory whose name ends in `yen` with a prefix that does not
parse as a `u32` is never classified at all — the `u32` parse failure
propagates as an error that aborts the creator's grouping, so the name
never reaches the date-prefix-or-ignore path. -/
theorem plan_tier_classification_amended (ds name : FName)
    (cs rest : List FsTree) (posts : List FanboxDLPost)
    (ungroup : List RPath) (hne : ds ≠ [])
    (hdig : ∀ c ∈ ds, c.isDigit = true) (hlt : digits_val ds < 2 ^ 32)
    (hhid : is_hidden name = false)
    (hyen : trim_end_matches_yen name ≠ name)
    (hbad : parse_u32 (trim_end_matches_yen name) = none) :
    classify_dir (ds ++ ['y', 'e', 'n']) = DirClass.plan (digits_val ds) ∧
    read_archive_loop (FsTree.dir name cs :: rest) posts ungroup =
      ReadResult.errored := by
  refine ⟨classify_dir_plan ds hne hdig hlt, ?_⟩
  simp [read_archive_loop, hhid, classify_dir_parse_err name hyen hbad]

theorem plan_tier_classification_witness :
    classify_dir (['1', '2', '3'] ++ ['y', 'e', 'n']) =
      DirClass.plan (digits_val ['1', '2', '3']) ∧
    read_archive_loop
      [FsTree.dir ['a', 'b', 'c', 'y', 'e', 'n'] []] [] [] =
      ReadResult.errored :=
  plan_tier_classification_amended ['1', '2', '3']
    ['a', 'b', 'c', 'y', 'e', 'n'] [] [] [] []
    (by decide) (by decide) (by decide) (by decide) (by decide) (by decide)

/-- C6 counterexample: the directory name `abcyen` does not fall through
to the date-prefix-or-ignore path — its failed `u32` parse aborts the
whole creator read with an error. -/
theorem nonnumeric_yen_errors_cex :
    read_fanbox_dl_archive
      [FsTree.dir ['a', 'b', 'c', 'y', 'e', 'n'] [FsTree.file ['f']]] =
      ReadResult.errored ∧
    classify_dir ['a', 'b', 'c', 'y', 'e', 'n'] = DirClass.parseErr := by
  decide

/-- C7: the directory `2024-05-01-Birthday` never becomes a `DatedPost`
group. The code parses the 11-byte prefix with chrono's
`DateTime::parse_from_str` and the format `%Y-%m-%d-`, which cannot
succeed because the format provides no time of day and no UTC offset, so
the directory is silently ignored: the creator read returns only the
empty ungrouped group and drops the directory's files. -/
theorem dated_dir_never_grouped :
    classify_dir
      ['2', '0', '2', '4', '-', '0', '5', '-', '0', '1', '-', 'B', 'i',
        'r', 't', 'h', 'd', 'a', 'y'] = DirClass.ignored ∧
    read_fanbox_dl_archive
      [FsTree.dir
        ['2', '0', '2', '4', '-', '0', '5', '-', '0', '1', '-', 'B', 'i',
          'r', 't', 'h', 'd', 'a', 'y']
        [FsTree.file ['x', '.', 'p', 'n', 'g']]] =
      ReadResult.ok [FanboxDLPost.ungroup []] := by
  decide

theorem utf8_len_append (a b : FName) :
    utf8_len (a ++ b) = utf8_len a + utf8_len b := by
  simp [utf8_len]

theorem split_at_bytes_some (s : FName) (m : Nat) (a b : FName)
    (h : split_at_bytes s m = some (a, b)) :
    s = a ++ b ∧ utf8_len a = m := by
  induction s generalizing m a b with
  | nil =>
      cases m with
      | zero =>
          simp [split_at_bytes] at h
          obtain ⟨ha, hb⟩ := h
          subst ha; subst hb
          simp [utf8_len]
      | succ m => simp [split_at_bytes] at h
  | cons c cs ih =>
      cases m with
      | zero =>
          simp [split_at_bytes] at h
          obtain ⟨ha, hb⟩ := h
          subst ha; subst hb
          simp [utf8_len]
      | succ m =>
          unfold split_at_bytes at h
          by_cases hsz : c.utf8Size ≤ m + 1
          · simp only [hsz, if_true] at h
            cases hsp : split_at_bytes cs (m + 1 - c.utf8Size) with
            | none => rw [hsp] at h; simp at h
            | some ab =>
                obtain ⟨a', b'⟩ := ab
                rw [hsp] at h
                simp only [Option.some.injEq, Prod.mk.injEq] at h
                obtain ⟨hrec, hlen⟩ := ih (m + 1 - c.utf8Size) a' b' hsp
                refine ⟨?_, ?_⟩
                · rw [← h.1, ← h.2]; simp [hrec]
                · rw [← h.1]
                  simp only [utf8_len, List.map_cons, List.sum_cons]
                  have : (a'.map Char.utf8Size).sum = m + 1 - c.utf8Size := hlen
                  omega
          · simp [hsz] at h

theorem split_at_bytes_none_of (name : FName)
    (h : utf8_len name < 11 ∨ ∀ k, utf8_len (List.take k name) ≠ 11) :
    split_at_bytes name 11 = none := by
  cases hsp : split_at_bytes name 11 with
  | none => rfl
  | some ab =>
      obtain ⟨a, b⟩ := ab
      obtain ⟨heq, hlen⟩ := split_at_bytes_some name 11 a b hsp
      rcases h with h | h
      · rw [heq, utf8_len_append] at h
        omega
      · exact absurd (by rw [heq, List.take_left]; exact hlen) (h a.length)

/-- C10: a non-hidden subdirectory whose name does not end in `yen` is
classified by byte-splitting the name at index 11; when the name is
shorter than 11 bytes, or no character boundary falls at byte index 11,
the `str::split_at(11)` call panics, aborting the creator read — the
directory is neither ignored nor reported as an error. -/
theorem date_split_panics_short_names (name : FName) (cs rest : List FsTree)
    (posts : List FanboxDLPost) (ungroup : List RPath)
    (hhid : is_hidden name = false)
    (hyen : trim_end_matches_yen name = name)
    (hshort : utf8_len name < 11 ∨ ∀ k, utf8_len (List.take k name) ≠ 11) :
    classify_dir name = DirClass.panicked ∧
    read_archive_loop (FsTree.dir name cs :: rest) posts ungroup =
      ReadResult.panicked := by
  have hcl : classify_dir name = DirClass.panicked := by
    simp [classify_dir, hyen, split_at_bytes_none_of name hshort]
  exact ⟨hcl, by simp [read_archive_loop, hhid, hcl]⟩

theorem date_split_panics_witness :
    classify_dir ['s', 'h', 'o', 'r', 't'] = DirClass.panicked ∧
    read_archive_loop [FsTree.dir ['s', 'h', 'o', 'r', 't'] []] [] [] =
      ReadResult.panicked :=
  date_split_panics_short_names ['s', 'h', 'o', 'r', 't'] [] [] [] []
    (by decide) (by decide) (Or.inl (by decide))

theorem sem_reach_invariant (limit : Nat) (s : SemState)
    (h : SemReach limit s) : s.available + s.running = limit := by
  induction h with
  | init => rfl
  | step _ hst ih =>
      cases hst with
      | spawn => simpa using ih
      | acquire hp ha => simp at ih ⊢; omega
      | complete hr => simp at ih ⊢; omega

/-- C5: at every moment of a run, the number of transform tasks in the
Running state (admitted past the semaphore and performing their
copy/move/hardlink) is at most the configured concurrency limit, whose
default is 5. -/
theorem transform_concurrency_bounded (limit : Nat) (s : SemState)
    (h : SemReach limit s) : s.running ≤ limit ∧ default_limit = 5 :=
  ⟨by have := sem_reach_invariant limit s h; omega, rfl⟩

theorem transform_concurrency_bounded_witness :
    (SemState.mk 4 1 0 0).running ≤ 5 ∧ default_limit = 5 :=
  transform_concurrency_bounded 5 (SemState.mk 4 1 0 0)
    (SemReach.step
      (SemReach.step SemReach.init (SemStep.spawn (SemState.mk 5 0 0 0)))
      (SemStep.acquire (SemState.mk 5 0 1 0) (by decide) (by decide)))

/-- C2 (amended): `sync_posts` opens and commits one transaction per
post, so the committed store after the loop is the original store
extended by the keys of the longest successful prefix of the post list,
and the loop succeeds exactly when every post's sync succeeded; a
failing post rolls back only its own transaction while every earlier
post of the same creator stays committed. -/
theorem sync_posts_per_post_commit (store : List Nat)
    (posts : List PostSync) :
    sync_posts_committed store posts =
      (store ++ (posts.takeWhile PostSync.ok).map PostSync.key,
       posts.all PostSync.ok) := by
  induction posts generalizing store with
  | nil => simp [sync_posts_committed]
  | cons p rest ih =>
      by_cases hp : p.ok <;>
        simp [sync_posts_committed, hp, List.takeWhile_cons, ih]

/-- C2 counterexample: with a creator whose first post syncs and whose
second post fails, the store keeps the first post committed even though
the creator's batch failed — the batch is not rolled back as a whole,
and the commit of post 1 happened before post 2 was processed. -/
theorem sync_posts_partial_commit_cex :
    sync_posts_committed [] [PostSync.mk 1 true, PostSync.mk 2 false] =
      ([1], false) ∧ ([1] : List Nat) ≠ [] := by decide

/-- C3 (amended): the creator loop of `main` propagates the first
grouping or metadata-sync error out of `main`, so the creators fully
processed are exactly the longest successful prefix, and the run
succeeds only when every creator processed without error; creators after
the first failing one are never reached. -/
theorem run_creators_abort_on_first_error (creators : List CreatorProc) :
    run_creators creators =
      ((creators.takeWhile CreatorProc.ok).map CreatorProc.id,
       creators.all CreatorProc.ok) := by
  induction creators with
  | nil => simp [run_creators]
  | cons c rest ih =>
      by_cases hc : c.ok <;>
        simp [run_creators, hc, List.takeWhile_cons, ih]

/-- C3 counterexample: when the first creator's processing fails, the
run returns an error and the second creator — although it would process
fine — is never processed. -/
theorem creator_error_aborts_run_cex :
    run_creators [CreatorProc.mk 1 false, CreatorProc.mk 2 true] =
      ([], false) ∧
    2 ∉ (run_creators [CreatorProc.mk 1 false, CreatorProc.mk 2 true]).1 := by
  decide

/-- C4: with a single post of three files whose first transform fails
and whose other two succeed, every sibling transform still completes and
is reported on its own progress bar (the outcome list records each file
independently) and exactly one transform failed; but the final summary
of `sync_posts` reports total 1, success 1, failed 0, because it reads
the posts progress bar — whose length is the number of posts, which
nothing increments, and which `finish_and_clear` completes to its full
length — instead of any transform count. -/
theorem sync_posts_summary_ignores_failures :
    sync_posts_summary [[false, true, true]] = RunSummary.mk 1 1 0 ∧
    count_failed [[false, true, true]] = 1 ∧
    transform_outcomes [[false, true, true]] = [false, true, true] := by
  decide

theorem check_author_append_some (s t : Store) (k : FName) (v : Nat)
    (h : check_author s k = some v) : check_author (s ++ t) k = some v := by
  induction s with
  | nil => simp [check_author] at h
  | cons p rest ih =>
      by_cases hk : p.1 = k
      · simpa [check_author, hk] using h
      · simp [check_author, hk] at h ⊢
        exact ih h

theorem check_author_append_none (s t : Store) (k : FName)
    (h : check_author s k = none) :
    check_author (s ++ t) k = check_author t k := by
  induction s with
  | nil => simp
  | cons p rest ih =>
      by_cases hk : p.1 = k
      · simp [check_author, hk] at h
      · simp [check_author, hk] at h ⊢
        exact ih h

theorem sync_creators_preserves_lookup (creators : List FName) (s : Store)
    (k : FName) (v : Nat) (h : check_author s k = some v) :
    check_author (sync_creators s creators).1 k = some v := by
  induction creators generalizing s with
  | nil => simpa [sync_creators] using h
  | cons c rest ih =>
      cases hchk : check_author s (alias_of c) with
      | some id =>
          simpa [sync_creators, hchk] using ih s h
      | none =>
          simpa [sync_creators, hchk] using
            ih (s ++ [(alias_of c, s.length)])
              (check_author_append_some s [(alias_of c, s.length)] k v h)

/-- C8: running the author synchronization a second time over the same
creator list and the store produced by the first run changes nothing:
every creator's platform-qualified alias (`fanbox:` followed by the
creator id), registered by the first run, is found by the second run's
lookup, so no author is created twice and the same author ids are
resolved. -/
theorem sync_creators_idempotent (store : Store) (creators : List FName) :
    sync_creators (sync_creators store creators).1 creators =
      sync_creators store creators := by
  induction creators generalizing store with
  | nil => simp [sync_creators]
  | cons c rest ih =>
      cases hchk : check_author store (alias_of c) with
      | some id =>
          have h1 :
              check_author (sync_creators store rest).1 (alias_of c) =
                some id :=
            sync_creators_preserves_lookup rest store (alias_of c) id hchk
          simp [sync_creators, hchk, h1, ih store]
      | none =>
          have h0 :
              check_author (store ++ [(alias_of c, store.length)])
                (alias_of c) = some store.length := by
            rw [check_author_append_none store _ _ hchk]
            simp [check_author]
          have h1 :
              check_author
                (sync_creators (store ++ [(alias_of c, store.length)])
                  rest).1 (alias_of c) = some store.length :=
            sync_creators_preserves_lookup rest _ (alias_of c) _ h0
          simp [sync_creators, hchk, h1,
            ih (store ++ [(alias_of c, store.length)])]

/-- C9: with a non-empty allow-list, a creator in the allow-list and not
in the deny-list is included; a creator in the deny-list is excluded
even when the allow-list would admit it; and a creator absent from the
allow-list (in particular one in neither list) is excluded. -/
theorem filter_creator_allow_deny (wl bl : List FName) (a b c : FName)
    (hwl : wl ≠ []) (hain : wl.contains a = true)
    (habl : bl.contains a = false) (hb : bl.contains b = true)
    (hc : wl.contains c = false) :
    filter_creator wl bl a = true ∧ filter_creator wl bl b = false ∧
      filter_creator wl bl c = false := by
  have hain' : a ∈ wl := by simpa using hain
  have habl' : a ∉ bl := by simpa using habl
  have hb' : b ∈ bl := by simpa using hb
  have hc' : c ∉ wl := by simpa using hc
  refine ⟨?_, ?_, ?_⟩ <;>
    simp [filter_creator, List.isEmpty_iff, hwl] <;> tauto

theorem filter_creator_allow_deny_witness :
    filter_creator [['a', 'l', 'i', 'c', 'e']] [['b', 'o', 'b']]
        ['a', 'l', 'i', 'c', 'e'] = true ∧
      filter_creator [['a', 'l', 'i', 'c', 'e']] [['b', 'o', 'b']]
        ['b', 'o', 'b'] = false ∧
      filter_creator [['a', 'l', 'i', 'c', 'e']] [['b', 'o', 'b']]
        ['c', 'a', 'r', 'o', 'l'] = false :=
  filter_creator_allow_deny [['a', 'l', 'i', 'c', 'e']] [['b', 'o', 'b']]
    ['a', 'l', 'i', 'c', 'e'] ['b', 'o', 'b'] ['c', 'a', 'r', 'o', 'l']
    (by decide) (by decide) (by decide) (by decide) (by decide)

theorem read_dir_files_fuel_stable (f1 : Nat) :
    ∀ f2 base level cs, max_depth + 1 < f1 + level →
      max_depth + 1 < f2 + level →
      read_dir_files f1 base level cs = read_dir_files f2 base level cs := by
  induction f1 with
  | zero =>
      intro f2 base level cs h1 h2
      have hml : max_depth < level := by omega
      cases f2 with
      | zero => rfl
      | succ g => simp [read_dir_files, hml]
  | succ a ih =>
      intro f2 base level cs h1 h2
      cases f2 with
      | zero =>
          have hml : max_depth < level := by omega
          simp [read_dir_files, hml]
      | succ b =>
          by_cases hml : max_depth < level
          · simp [read_dir_files, hml]
          · simp only [read_dir_files, if_neg hml]
            congr 2
            apply List.map_congr_left
            intro t ht
            cases t with
            | file n => rfl
            | other n => rfl
            | dir n cs' =>
                by_cases hh : is_hidden n = true
                · simp [hh]
                · simp only [hh, Bool.false_eq_true, if_false]
                  exact ih b (base ++ [n]) (level + 1) cs' (by omega)
                    (by omega)

theorem read_dir_files_succ (fuel : Nat) (base : RPath) (level : Nat)
    (children : List FsTree) (h : ¬ max_depth < level) :
    read_dir_files (fuel + 1) base level children =
      local_files base children ++
        (children.map fun t =>
          match t with
          | FsTree.dir n cs =>
              if is_hidden n then []
              else read_dir_files fuel (base ++ [n]) (level + 1) cs
          | _ => []).flatten := by
  rw [read_dir_files]
  rw [if_neg h]

theorem local_files_nil (base : RPath) : local_files base [] = [] := rfl

theorem local_files_cons_dir (base : RPath) (n : FName)
    (cs : List FsTree) (ts : List FsTree) :
    local_files base (FsTree.dir n cs :: ts) = local_files base ts := by
  simp [local_files, List.filterMap_cons]

theorem local_files_cons_other (base : RPath) (n : FName)
    (ts : List FsTree) :
    local_files base (FsTree.other n :: ts) = local_files base ts := by
  simp [local_files, List.filterMap_cons]

theorem local_files_cons_file_hidden (base : RPath) (n : FName)
    (ts : List FsTree) (hh : is_hidden n = true) :
    local_files base (FsTree.file n :: ts) = local_files base ts := by
  simp [local_files, List.filterMap_cons, hh]

theorem local_files_cons_file_vis (base : RPath) (n : FName)
    (ts : List FsTree) (hh : is_hidden n = false) :
    local_files base (FsTree.file n :: ts) =
      (base ++ [n]) :: local_files base ts := by
  simp [local_files, List.filterMap_cons, hh]

theorem read_dir_files_perm_spec (fuel : Nat) :
    ∀ base level cs, fuel + level = max_depth + 2 →
      List.Perm (read_dir_files fuel base level cs)
        (spec_eligible_under (fuel - 1) base cs) := by
  induction fuel with
  | zero =>
      intro base level cs h
      simp [read_dir_files, spec_eligible_under]
  | succ f ih =>
      intro base level cs h
      by_cases hlev : max_depth < level
      · have hf : f = 0 := by omega
        have hL : read_dir_files (f + 1) base level cs = [] := by
          rw [read_dir_files]
          rw [if_pos hlev]
        rw [hL, hf]
        simp [spec_eligible_under]
      · obtain ⟨g, hg⟩ : ∃ g, f = g + 1 := ⟨f - 1, by omega⟩
        subst hg
        rw [Nat.succ_sub_one]
        induction cs with
        | nil =>
            rw [read_dir_files_succ _ _ _ _ hlev]
            simp [local_files_nil, spec_eligible_under]
        | cons t ts iht =>
            rw [read_dir_files_succ _ _ _ _ hlev] at iht ⊢
            simp only [spec_eligible_under, List.flatMap_cons] at iht ⊢
            simp only [List.map_cons, List.flatten_cons]
            cases t with
            | file n =>
                by_cases hh : is_hidden n = true
                · rw [local_files_cons_file_hidden _ _ _ hh]
                  simpa [spec_eligible_entry, hh] using iht
                · have hh' : is_hidden n = false := by simpa using hh
                  rw [local_files_cons_file_vis _ _ _ hh']
                  simp only [spec_eligible_entry, hh',
                    Bool.false_eq_true, if_false, List.cons_append,
                    List.nil_append, List.singleton_append]
                  exact List.Perm.cons _ (by simpa using iht)
            | other n =>
                rw [local_files_cons_other]
                simpa [spec_eligible_entry] using iht
            | dir n cs' =>
                rw [local_files_cons_dir]
                by_cases hh : is_hidden n = true
                · simpa [spec_eligible_entry, hh] using iht
                · have hDS :
                      List.Perm
                        (read_dir_files (g + 1) (base ++ [n]) (level + 1)
                          cs')
                        (spec_eligible_under g (base ++ [n]) cs') := by
                    have := ih (base ++ [n]) (level + 1) cs' (by omega)
                    simpa using this
                  simp only [spec_eligible_entry, hh,
                    Bool.false_eq_true, if_false]
                  rw [List.perm_iff_count] at hDS iht ⊢
                  intro a
                  have h1 := iht a
                  have h2 := hDS a
                  simp only [List.count_append] at h1 h2 ⊢
                  omega

theorem read_archive_loop_perm (entries : List FsTree) :
    ∀ posts ungroup res,
      read_archive_loop entries posts ungroup = ReadResult.ok res →
      List.Perm (all_group_files res)
        (all_group_files posts ++ ungroup ++ spec_eligible entries) := by
  induction entries with
  | nil =>
      intro posts ungroup res h
      simp only [read_archive_loop, ReadResult.ok.injEq] at h
      subst h
      simp only [all_group_files, spec_eligible, List.flatMap_append,
        List.flatMap_cons, List.flatMap_nil, FanboxDLPost.files,
        List.append_nil]
      exact List.Perm.refl _
  | cons t rest ih =>
      intro posts ungroup res h
      cases t with
      | file n =>
          by_cases hh : is_hidden n = true
          · simp only [read_archive_loop, hh, if_true] at h
            have := ih _ _ _ h
            simpa [spec_eligible, List.flatMap_cons, spec_top_entry, hh]
              using this
          · simp only [read_archive_loop, hh, Bool.false_eq_true,
              if_false] at h
            have hperm := ih _ _ _ h
            refine hperm.trans ?_
            simp only [spec_eligible, List.flatMap_cons, spec_top_entry,
              hh, Bool.false_eq_true, if_false, List.append_assoc,
              List.cons_append, List.nil_append]
            exact List.Perm.refl _
      | other n =>
          simp only [read_archive_loop] at h
          have := ih _ _ _ h
          simpa [spec_eligible, List.flatMap_cons, spec_top_entry]
            using this
      | dir n cs =>
          by_cases hh : is_hidden n = true
          · simp only [read_archive_loop, hh, if_true] at h
            have := ih _ _ _ h
            simpa [spec_eligible, List.flatMap_cons, spec_top_entry, hh]
              using this
          · cases hcl : classify_dir n with
            | plan yen =>
                simp only [read_archive_loop, hh, Bool.false_eq_true,
                  if_false, hcl] at h
                have hperm := ih _ _ _ h
                have hgroup : is_group_dir n = true := by
                  simp [is_group_dir, hcl]
                have hDS := read_dir_files_perm_spec (max_depth + 1) [n]
                  1 cs rfl
                rw [Nat.add_sub_cancel] at hDS
                refine hperm.trans ?_
                rw [List.perm_iff_count]
                intro a
                have hc := hDS.count_eq a
                simp only [all_group_files, List.flatMap_append,
                  List.flatMap_cons, List.flatMap_nil,
                  FanboxDLPost.files, List.append_nil, List.count_append,
                  spec_eligible, spec_top_entry, hh, hgroup,
                  Bool.false_eq_true, not_true, or_self, if_false,
                  Bool.not_true, false_or, if_neg] at hc ⊢
                omega
            | post d title =>
                simp only [read_archive_loop, hh, Bool.false_eq_true,
                  if_false, hcl] at h
                have hperm := ih _ _ _ h
                have hgroup : is_group_dir n = true := by
                  simp [is_group_dir, hcl]
                have hDS := read_dir_files_perm_spec (max_depth + 1) [n]
                  1 cs rfl
                rw [Nat.add_sub_cancel] at hDS
                refine hperm.trans ?_
                rw [List.perm_iff_count]
                intro a
                have hc := hDS.count_eq a
                simp only [all_group_files, List.flatMap_append,
                  List.flatMap_cons, List.flatMap_nil,
                  FanboxDLPost.files, List.append_nil, List.count_append,
                  spec_eligible, spec_top_entry, hh, hgroup,
                  Bool.false_eq_true, not_true, or_self, if_false,
                  Bool.not_true, false_or, if_neg] at hc ⊢
                omega
            | ignored =>
                simp only [read_archive_loop, hh, Bool.false_eq_true,
                  if_false, hcl] at h
                have := ih _ _ _ h
                have hgroup : is_group_dir n = false := by
                  simp [is_group_dir, hcl]
                simpa [spec_eligible, List.flatMap_cons, spec_top_entry,
                  hh, hgroup] using this
            | parseErr =>
                simp [read_archive_loop, hh, hcl] at h
            | panicked =>
                simp [read_archive_loop, hh, hcl] at h

theorem spec_eligible_under_prefix (r : Nat) :
    ∀ base cs q, q ∈ spec_eligible_under r base cs →
      ∃ tail, q = base ++ tail := by
  induction r with
  | zero => intro base cs q h; simp [spec_eligible_under] at h
  | succ r ih =>
      intro base cs q h
      simp only [spec_eligible_under, List.mem_flatMap] at h
      obtain ⟨t, _, hq⟩ := h
      cases t with
      | file n =>
          by_cases hh : is_hidden n = true <;>
            simp [spec_eligible_entry, hh] at hq
          exact ⟨[n], hq⟩
      | other n => simp [spec_eligible_entry] at hq
      | dir n cs' =>
          by_cases hh : is_hidden n = true <;>
            simp [spec_eligible_entry, hh] at hq
          obtain ⟨tail, htail⟩ := ih (base ++ [n]) cs' q hq
          exact ⟨n :: tail, by simp [htail]⟩

theorem spec_eligible_entry_shape (r : Nat) (base : RPath) (t : FsTree)
    (q : RPath) (hq : q ∈ spec_eligible_entry r base t) :
    ∃ tail, q = base ++ FsTree.name t :: tail := by
  cases t with
  | file n =>
      by_cases hh : is_hidden n = true <;>
        simp [spec_eligible_entry, hh] at hq
      exact ⟨[], by simp [hq, FsTree.name]⟩
  | other n => simp [spec_eligible_entry] at hq
  | dir n cs =>
      by_cases hh : is_hidden n = true <;>
        simp [spec_eligible_entry, hh] at hq
      obtain ⟨tail, htail⟩ := spec_eligible_under_prefix r (base ++ [n])
        cs q hq
      exact ⟨tail, by simp [htail, FsTree.name]⟩

theorem spec_top_entry_shape (t : FsTree) (q : RPath)
    (hq : q ∈ spec_top_entry t) :
    ∃ tail, q = FsTree.name t :: tail := by
  cases t with
  | file n =>
      by_cases hh : is_hidden n = true <;> simp [spec_top_entry, hh] at hq
      exact ⟨[], by simp [hq, FsTree.name]⟩
  | other n => simp [spec_top_entry] at hq
  | dir n cs =>
      simp only [spec_top_entry] at hq
      split at hq
      · simp at hq
      · obtain ⟨tail, htail⟩ := spec_eligible_under_prefix max_depth [n]
          cs q hq
        exact ⟨tail, by simpa [FsTree.name] using htail⟩

theorem spec_eligible_under_nodup (r : Nat) :
    ∀ base cs, WFEntries cs → (spec_eligible_under r base cs).Nodup := by
  induction r with
  | zero => intro base cs _; simp [spec_eligible_under]
  | succ r ih =>
      intro base cs hwf
      cases hwf with
      | mk _ hn hrec =>
        simp only [spec_eligible_under]
        rw [List.nodup_flatMap]
        constructor
        · intro t ht
          cases t with
          | file n =>
              by_cases hh : is_hidden n = true <;>
                simp [spec_eligible_entry, hh]
          | other n => simp [spec_eligible_entry]
          | dir n cs' =>
              by_cases hh : is_hidden n = true
              · simp [spec_eligible_entry, hh]
              · simpa [spec_eligible_entry, hh]
                  using ih (base ++ [n]) cs' (hrec n cs' ht)
        · have hn' : List.Pairwise (fun a b => a ≠ b)
              (cs.map FsTree.name) := hn
          have hp := List.pairwise_map.mp hn'
          refine hp.imp ?_
          intro a b hab
          simp only [Function.onFun]
          intro q hqa hqb
          obtain ⟨ta, hta⟩ := spec_eligible_entry_shape r base a q hqa
          obtain ⟨tb, htb⟩ := spec_eligible_entry_shape r base b q hqb
          rw [hta] at htb
          have h2 : FsTree.name a :: ta = FsTree.name b :: tb :=
            List.append_cancel_left htb
          injection h2 with h3 _
          exact hab h3

theorem spec_eligible_nodup (entries : List FsTree)
    (hwf : WFEntries entries) : (spec_eligible entries).Nodup := by
  cases hwf with
  | mk _ hn hrec =>
    rw [spec_eligible, List.nodup_flatMap]
    constructor
    · intro t ht
      cases t with
      | file n =>
          by_cases hh : is_hidden n = true <;> simp [spec_top_entry, hh]
      | other n => simp [spec_top_entry]
      | dir n cs =>
          simp only [spec_top_entry]
          split
          · simp
          · exact spec_eligible_under_nodup max_depth [n] cs
              (hrec n cs ht)
    · have hn' : List.Pairwise (fun a b => a ≠ b)
          (entries.map FsTree.name) := hn
      have hp := List.pairwise_map.mp hn'
      refine hp.imp ?_
      intro a b hab
      simp only [Function.onFun]
      intro q hqa hqb
      obtain ⟨ta, hta⟩ := spec_top_entry_shape a q hqa
      obtain ⟨tb, htb⟩ := spec_top_entry_shape b q hqb
      rw [hta] at htb
      injection htb with h3 _
      exact hab h3

/-- C1 (amended): when the group builder succeeds on a well-formed
creator directory, the concatenation of all groups' file lists is a
permutation of the eligible files — the non-hidden regular files lying
directly in the creator directory, together with, for every non-hidden
subdirectory that the builder classifies as a group root, the non-hidden
regular files reachable beneath it through non-hidden directories within
the recursion depth limit — and the eligible-file list has no
duplicates, so every eligible file appears in exactly one group's file
list, exactly once. Files beneath ignored (unclassified) or hidden
entries appear in no group. -/
theorem group_files_partition_amended (entries : List FsTree)
    (posts : List FanboxDLPost) (hwf : WFEntries entries)
    (hok : read_fanbox_dl_archive entries = ReadResult.ok posts) :
    List.Perm (all_group_files posts) (spec_eligible entries) ∧
      (spec_eligible entries).Nodup := by
  refine ⟨?_, spec_eligible_nodup entries hwf⟩
  have h := read_archive_loop_perm entries [] [] posts hok
  simpa [all_group_files] using h

theorem group_files_partition_witness :
    List.Perm
      (all_group_files
        [FanboxDLPost.group_by_plan 123
          [[['1', '2', '3', 'y', 'e', 'n'], ['a']]],
         FanboxDLPost.ungroup [[['b']]]])
      (spec_eligible
        [FsTree.dir ['1', '2', '3', 'y', 'e', 'n'] [FsTree.file ['a']],
         FsTree.file ['b']]) ∧
    (spec_eligible
      [FsTree.dir ['1', '2', '3', 'y', 'e', 'n'] [FsTree.file ['a']],
       FsTree.file ['b']]).Nodup :=
  group_files_partition_amended
    [FsTree.dir ['1', '2', '3', 'y', 'e', 'n'] [FsTree.file ['a']],
     FsTree.file ['b']]
    [FanboxDLPost.group_by_plan 123
      [[['1', '2', '3', 'y', 'e', 'n'], ['a']]],
     FanboxDLPost.ungroup [[['b']]]]
    (by
      refine WFEntries.mk _ (by decide) ?_
      intro n cs hmem
      simp only [List.mem_cons, List.not_mem_nil, or_false] at hmem
      rcases hmem with hmem | hmem
      · obtain ⟨hn, hcs⟩ := FsTree.dir.inj hmem
        subst hcs
        refine WFEntries.mk _ (by decide) ?_
        intro n' cs' hmem'
        simp at hmem'
      · exact absurd hmem (by simp))
    (by decide)

/-- C1 counterexample: in a creator directory holding one subdirectory
named `miscellanea` (matching neither the plan-tier nor the date
pattern) with one regular file `a` inside, the file is a regular file
reachable well within the recursion depth limit, yet the group builder
succeeds and places it in no group's file list — refuting the claim
that no such file is omitted from all groups. -/
theorem reachable_file_omitted_cex :
    read_fanbox_dl_archive
      [FsTree.dir ['m', 'i', 's', 'c', 'e', 'l', 'l', 'a', 'n', 'e', 'a']
        [FsTree.file ['a']]] =
      ReadResult.ok [FanboxDLPost.ungroup []] ∧
    [['m', 'i', 's', 'c', 'e', 'l', 'l', 'a', 'n', 'e', 'a'], ['a']] ∈
      reachable_regular_files (max_depth + 1) []
        [FsTree.dir ['m', 'i', 's', 'c', 'e', 'l', 'l', 'a', 'n', 'e', 'a']
          [FsTree.file ['a']]] ∧
    [['m', 'i', 's', 'c', 'e', 'l', 'l', 'a', 'n', 'e', 'a'], ['a']] ∉
      all_group_files [FanboxDLPost.ungroup []] := by
  decide
